import Mathlib

/-!
Verification of the tokenization subsystem of the repository
(`src/do_tokenize.py`): the `BasicTokenizer` class (regex-based segmenter,
growing persisted vocabulary, encode/decode), its JSON vocabulary file
format, and the `TOKENIZERS` registry dispatch used by `encode_text` /
`decode_text`.

The embedding is shallow: Python strings become `String` / `List Char`,
Python dicts become association lists with first-match lookup and
replace-or-append insertion (`dlookup` / `dinsert`), the single vocabulary
file at the fixed path `./data/vocabulary/basictokenizer_vocab.json`
becomes an `Option String` (absent / raw file text), and the Python `json`
standard library, applied by the source only to lists of strings, is
embedded as an executable serializer (`dumps`, mirroring
`json.dump` with its default `ensure_ascii=True` escaping and `", "`
separator) together with an executable parser (`loads`) for the array-of-
strings format the file contract prescribes.
-/

/-! ## Python dict model (association lists) -/

/-- Lookup in a Python dict modelled as an association list: first
matching key wins (insertion keeps keys unique, so this matches dict
semantics). -/
def dlookup {α β : Type} [DecidableEq α] : List (α × β) → α → Option β
  | [], _ => none
  | (k', v') :: d, k => if k' = k then some v' else dlookup d k

/-- Python dict assignment `d[k] = v`: replace the binding in place if the
key exists, otherwise append (dicts preserve insertion order). -/
def dinsert {α β : Type} [DecidableEq α] : List (α × β) → α → β → List (α × β)
  | [], k, v => [(k, v)]
  | (k', v') :: d, k, v => if k' = k then (k, v) :: d else (k', v') :: dinsert d k v

/-! ## Segmenter: `re.split(r'([,.:;?_!"()\']|--|\s)', text)` plus
strip/filter, from `BasicTokenizer.encode` lines 98-101. -/

/-- Characters of the regex character class. -/
def isPunctDelim (c : Char) : Bool :=
  c ∈ [',', '.', ':', ';', '?', '_', '!', '"', '(', ')', '\'']

/-- Python `\s` for `str` patterns (same character set as `str.isspace`,
which `str.strip()` also uses). -/
def isPySpace (c : Char) : Bool :=
  c.toNat ∈ [9, 10, 11, 12, 13, 28, 29, 30, 31, 32, 133, 160, 5760,
    8192, 8193, 8194, 8195, 8196, 8197, 8198, 8199, 8200, 8201, 8202,
    8232, 8233, 8239, 8287, 12288]

/-- One left-to-right pass of `re.split` with the capturing group: the
result is the first (possibly empty) piece together with the remaining
alternating delimiter/piece tokens.  At each position the alternation
tries the character class, then `--`, then `\s`. -/
def splitCore : List Char → List Char × List (List Char)
  | [] => ([], [])
  | [c] =>
    if isPunctDelim c || isPySpace c then ([], [[c], []])
    else ([c], [])
  | c :: c2 :: cs =>
    if isPunctDelim c || isPySpace c then
      let r := splitCore (c2 :: cs)
      ([], [c] :: r.1 :: r.2)
    else if c = '-' && c2 = '-' then
      let r := splitCore cs
      ([], [c, c2] :: r.1 :: r.2)
    else
      let r := splitCore (c2 :: cs)
      (c :: r.1, r.2)

/-- Full `re.split` result: pieces interleaved with captured delimiters
(like Python, it includes empty pieces at the ends and between adjacent
delimiters). -/
def rsplit (cs : List Char) : List (List Char) :=
  (splitCore cs).1 :: (splitCore cs).2

/-- Python `str.strip()` on a list of characters. -/
def stripL (cs : List Char) : List Char :=
  ((cs.dropWhile isPySpace).reverse.dropWhile isPySpace).reverse

/-- Python `str.strip()`. -/
def pystrip (s : String) : String := ⟨stripL s.data⟩

/-- The list comprehension
`[item.strip() for item in text_tokens if item.strip()]` applied to the
`re.split` result: the Segmenter of the spec. -/
def pysegment (text : String) : List String :=
  (rsplit text.data).filterMap fun item =>
    let t := stripL item
    if t = [] then none else some ⟨t⟩

/-! ## BasicTokenizer state -/

/-- In-memory state of a `BasicTokenizer` instance: `self.vocab`,
`self.token_to_id`, `self.id_to_token`. -/
structure TokState where
  vocab : List String
  token_to_id : List (String × Nat)
  id_to_token : List (Nat × String)
  deriving DecidableEq, Repr

/-- The three update lines shared by `__init__` (fresh branch) and
`encode` (new-token branch): append the token, then set
`token_to_id[token] = len(vocab) - 1` and `id_to_token[len(vocab) - 1]`. -/
def addToken (s : TokState) (t : String) : TokState :=
  let v := s.vocab ++ [t]
  { vocab := v
    token_to_id := dinsert s.token_to_id t (v.length - 1)
    id_to_token := dinsert s.id_to_token (v.length - 1) t }

/-- Keys of `self.special_tokens`, in insertion order. -/
def specialTokens : List String := ["<|BOS|>", "<|EOS|>"]

/-- State produced by the `else` branch of `__init__` (no vocabulary file):
the loop `for token in self.special_tokens` over `addToken`. -/
def freshState : TokState := specialTokens.foldl addToken ⟨[], [], []⟩

/-- Dict comprehension `{token: idx for idx, token in enumerate(vocab)}`,
inserting pairs left to right starting at index `i`. -/
def buildT2Igo : List String → Nat → List (String × Nat) → List (String × Nat)
  | [], _, d => d
  | t :: ts, i, d => buildT2Igo ts (i + 1) (dinsert d t i)

def buildT2I (v : List String) : List (String × Nat) := buildT2Igo v 0 []

/-- Dict comprehension `{idx: token for idx, token in enumerate(vocab)}`. -/
def buildI2Tgo : List String → Nat → List (Nat × String) → List (Nat × String)
  | [], _, d => d
  | t :: ts, i, d => buildI2Tgo ts (i + 1) (dinsert d i t)

def buildI2T (v : List String) : List (Nat × String) := buildI2Tgo v 0 []

/-- State produced by the `if os.path.exists` branch of `__init__` after
`json.load` returned the list `v`. -/
def stateOfVocab (v : List String) : TokState :=
  ⟨v, buildT2I v, buildI2T v⟩

/-- The framed token sequence of `encode`:
`["<|BOS|>"] ++ segmented text ++ ["<|EOS|>"]` (lines 96-105). -/
def framedTokens (text : String) : List String :=
  "<|BOS|>" :: pysegment text ++ ["<|EOS|>"]

/-- The `for token in tokens` loop of `encode` (lines 110-116): returns
the collected `token_ids`, the `new_tokens` list, and the final state.
The id is read back from `token_to_id` after the conditional insertion,
as the Python does on line 116 (the lookup cannot miss, so the `getD 0`
default is dead). -/
def encodeLoop : TokState → List String → List Nat × List String × TokState
  | s, [] => ([], [], s)
  | s, t :: ts =>
    match dlookup s.token_to_id t with
    | some id =>
      let r := encodeLoop s ts
      (id :: r.1, r.2.1, r.2.2)
    | none =>
      let s1 := addToken s t
      let id := (dlookup s1.token_to_id t).getD 0
      let r := encodeLoop s1 ts
      (id :: r.1, t :: r.2.1, r.2.2)

/-! ## JSON vocabulary file format

`save_vocab` runs `json.dump(self.vocab, f)` and `__init__` runs
`json.load(f)`; the file contract (spec section 6) is a single JSON array
of strings.  `dumps` below reproduces `json.dumps` byte for byte on lists
of strings with the defaults the source uses (`ensure_ascii=True`,
item separator `", "`); `loads` parses that array-of-strings format. -/

/-- Lowercase hexadecimal digit, as produced by Python's `'%04x'`
formatting inside `json.encoder`. -/
def hexDigitL (n : Nat) : Char :=
  if n < 10 then Char.ofNat (48 + n) else Char.ofNat (87 + n)

/-- Four-digit lowercase hex rendering of `n < 0x10000` (`'\u%04x'`). -/
def toHex4 (n : Nat) : List Char :=
  [hexDigitL (n / 4096 % 16), hexDigitL (n / 256 % 16),
   hexDigitL (n / 16 % 16), hexDigitL (n % 16)]

/-- Value of one hexadecimal digit character. -/
def hexVal (c : Char) : Option Nat :=
  if 48 ≤ c.toNat ∧ c.toNat ≤ 57 then some (c.toNat - 48)
  else if 97 ≤ c.toNat ∧ c.toNat ≤ 102 then some (c.toNat - 87)
  else if 65 ≤ c.toNat ∧ c.toNat ≤ 70 then some (c.toNat - 55)
  else none

/-- Value of a `\uXXXX` body. -/
def parseHex4 (h1 h2 h3 h4 : Char) : Option Nat :=
  (hexVal h1).bind fun a => (hexVal h2).bind fun b =>
    (hexVal h3).bind fun c => (hexVal h4).map fun d =>
      a * 4096 + b * 256 + c * 16 + d

/-- Escape of one character by `json.encoder.py_encode_basestring_ascii`:
the short escapes of `ESCAPE_DCT`, literal ASCII in `0x20..0x7e` other
than `"` and `\`, and `\uXXXX` (with a surrogate pair above `0xFFFF`) for
everything else. -/
def escChar (c : Char) : List Char :=
  if c = '"' then ['\\', '"']
  else if c = '\\' then ['\\', '\\']
  else if c.toNat = 10 then ['\\', 'n']
  else if c.toNat = 13 then ['\\', 'r']
  else if c.toNat = 9 then ['\\', 't']
  else if c.toNat = 8 then ['\\', 'b']
  else if c.toNat = 12 then ['\\', 'f']
  else if 32 ≤ c.toNat ∧ c.toNat ≤ 126 then [c]
  else if c.toNat < 65536 then '\\' :: 'u' :: toHex4 c.toNat
  else
    ('\\' :: 'u' :: toHex4 (55296 + (c.toNat - 65536) / 1024)) ++
    ('\\' :: 'u' :: toHex4 (56320 + (c.toNat - 65536) % 1024))

/-- `json.dumps` of one string (quotes plus escaped body). -/
def dumpStringL (s : String) : List Char :=
  '"' :: s.data.flatMap escChar ++ ['"']

/-- Comma-space separated element list, as `json.dumps` renders array
items with its default separators. -/
def elemsL : List String → List Char
  | [] => []
  | [s] => dumpStringL s
  | s :: rest => dumpStringL s ++ ',' :: ' ' :: elemsL rest

/-- `json.dumps` of a list of strings. -/
def dumpsL (v : List String) : List Char := '[' :: elemsL v ++ [']']

/-- `json.dump(self.vocab, f)`: the text written to the vocabulary file. -/
def dumps (v : List String) : String := ⟨dumpsL v⟩

/-- Option-map helper used by the parser: prepend a decoded character. -/
def consChar (c : Char) : Option (List Char × List Char) → Option (List Char × List Char) :=
  Option.map fun p => (c :: p.1, p.2)

/-- Construct a `Char` from a code point, refusing invalid scalar values
(surrogate halves and out-of-range codes). -/
def mkChar? (n : Nat) : Option Char :=
  if h : n.isValidChar then some (Char.ofNatAux n h) else none

/-- Decode the low-surrogate `\uXXXX` partner following a high surrogate
of value `m`, combining the two into one code point. -/
def decodeLow (m : Nat) : List Char → Option (Char × List Char)
  | b1 :: b2 :: g1 :: g2 :: g3 :: g4 :: rest4 =>
    if b1 = '\\' ∧ b2 = 'u' then
      (parseHex4 g1 g2 g3 g4).bind fun lo =>
        if 56320 ≤ lo ∧ lo < 57344 then
          (mkChar? (65536 + (m - 55296) * 1024 + (lo - 56320))).map
            fun ch => (ch, rest4)
        else none
    else none
  | _ => none

/-- Decode one character of a JSON string body (a literal character, a
short escape, or a `\uXXXX` escape possibly followed by a low-surrogate
partner), returning it with the unconsumed input.  Not recursive. -/
def decodeOne : List Char → Option (Char × List Char)
  | [] => none
  | c :: rest =>
    if c = '\\' then
      match rest with
      | [] => none
      | e :: rest2 =>
        if e = '"' then some ('"', rest2)
        else if e = '\\' then some ('\\', rest2)
        else if e = '/' then some ('/', rest2)
        else if e = 'b' then some (Char.ofNat 8, rest2)
        else if e = 'f' then some (Char.ofNat 12, rest2)
        else if e = 'n' then some (Char.ofNat 10, rest2)
        else if e = 'r' then some (Char.ofNat 13, rest2)
        else if e = 't' then some (Char.ofNat 9, rest2)
        else if e = 'u' then
          match rest2 with
          | h1 :: h2 :: h3 :: h4 :: rest3 =>
            (parseHex4 h1 h2 h3 h4).bind fun m =>
              if m < 55296 ∨ 57344 ≤ m then
                (mkChar? m).map fun ch => (ch, rest3)
              else if m < 56320 then decodeLow m rest3
              else none
          | _ => none
        else none
    else if c = '"' then none
    else if 32 ≤ c.toNat then some (c, rest)
    else none

/-- Parse the body of a JSON string up to and including the closing
quote, returning the decoded characters and the rest of the input
(fuelled; one unit of fuel per decoded character, so the input length is
always enough). -/
def parseSB : Nat → List Char → Option (List Char × List Char)
  | 0, _ => none
  | fuel + 1, cs =>
    match cs with
    | [] => none
    | c :: rest =>
      if c = '"' then some ([], rest)
      else (decodeOne (c :: rest)).bind fun p => consChar p.1 (parseSB fuel p.2)

/-- Parse one JSON string literal. -/
def parseJStr : List Char → Option (String × List Char)
  | [] => none
  | c :: rest =>
    if c = '"' then (parseSB rest.length rest).map fun p => (⟨p.1⟩, p.2)
    else none

/-- Parse one or more `", "`-separated JSON strings (fuelled; the fuel is
instantiated with the input length, which always suffices). -/
def parseElems : Nat → List Char → Option (List String × List Char)
  | 0, _ => none
  | fuel + 1, cs =>
    (parseJStr cs).bind fun p =>
      match p.2 with
      | c1 :: c2 :: rest2 =>
        if c1 = ',' ∧ c2 = ' ' then
          (parseElems fuel rest2).map fun q => (p.1 :: q.1, q.2)
        else some ([p.1], p.2)
      | _ => some ([p.1], p.2)

/-- Parse a complete JSON array of strings (the vocabulary file format). -/
def loadsL : List Char → Option (List String)
  | [] => none
  | c :: rest =>
    if c = '[' then
      if rest = [']'] then some []
      else
        (parseElems (rest.length + 1) rest).bind fun p =>
          if p.2 = [']'] then some p.1 else none
    else none

/-- `json.load` of the vocabulary file text, restricted to the
array-of-strings format the file contract prescribes (anything else is a
malformed vocabulary file). -/
def loads (s : String) : Option (List String) := loadsL s.data

/-- `BasicTokenizer.encode(text, vocab_update)` (lines 90-122), over the
in-memory state and the vocabulary file content (`none` = file absent).
Returns `(token_ids, final state, final file content)`; the file is
rewritten with the serialized vocabulary exactly when `vocab_update` holds
and `new_tokens` is non-empty (lines 119-120). -/
def pyencode (s : TokState) (fs : Option String) (text : String)
    (vocab_update : Bool) : List Nat × TokState × Option String :=
  let r := encodeLoop s (framedTokens text)
  let fs' := if vocab_update && !r.2.1.isEmpty then some (dumps r.2.2.vocab) else fs
  (r.1, r.2.2, fs')

/-- `BasicTokenizer.decode(token_ids)` (lines 124-130):
`"".join(self.id_to_token.get(token_id, "[UNK]") for ...)`. -/
def pydecode (s : TokState) (ids : List Nat) : String :=
  String.join (ids.map fun i => (dlookup s.id_to_token i).getD "[UNK]")

/-- `BasicTokenizer.__init__` (lines 53-81) over the vocabulary file
content: load and index the file if it exists (a file that does not parse
as an array of strings is a malformed vocabulary file and fails), else
build the special-token vocabulary and immediately `save_vocab()`.
Returns the constructed state and the (possibly newly written) file. -/
def pyinit (fs : Option String) : Except String (TokState × Option String) :=
  match fs with
  | some content =>
    match loads content with
    | some v => .ok (stateOfVocab v, some content)
    | none => .error "MalformedFile"
  | none =>
    .ok (freshState, some (dumps freshState.vocab))

/-- The `TOKENIZERS["B"]["encode"]` path generalized over `vocab_update`:
`BasicTokenizer().encode(text, vocab_update)` — a fresh instance is
constructed from the file on every call. -/
def runEncodeBU (fs : Option String) (text : String) (update : Bool) :
    Except String (List Nat × Option String) :=
  match pyinit fs with
  | .error e => .error e
  | .ok (s, fs1) =>
    let r := pyencode s fs1 text update
    .ok (r.1, r.2.2)

/-- `TOKENIZERS["B"]["encode"]`: `BasicTokenizer().encode(text)` with the
default `vocab_update=True` (line 14). -/
def runEncodeB (fs : Option String) (text : String) :
    Except String (List Nat × Option String) :=
  runEncodeBU fs text true

/-- `TOKENIZERS["B"]["decode"]`: `BasicTokenizer().decode(token_ids)`
(line 15) — note the fresh instance runs `__init__` first. -/
def runDecodeB (fs : Option String) (ids : List Nat) :
    Except String (String × Option String) :=
  match pyinit fs with
  | .error e => .error e
  | .ok (s, fs1) => .ok (pydecode s ids, fs1)

/-- A sequence of registry-style encode calls (each on a fresh instance,
default `vocab_update=True`), threading the vocabulary file. -/
def runSeq (fs : Option String) : List String → Except String (Option String)
  | [] => .ok fs
  | t :: ts =>
    match runEncodeB fs t with
    | .error e => .error e
    | .ok (_, fs') => runSeq fs' ts

/-! ## Tokenizer registry (`TOKENIZERS`, `encode_text`, `decode_text`) -/

/-- A value of the `TOKENIZERS` table: the locally implemented strategy,
or an adapter delegating to an external library (opaque here; the string
records which backing model the lambda loads). -/
inductive TokAdapter where
  | basic
  | char_codes
  | external (backend : String)
  deriving DecidableEq, Repr

/-- The top-level `TOKENIZERS` dictionary (lines 12-49), keys in source
order. -/
def TOKENIZERS : List (String × TokAdapter) :=
  [("B", .basic),
   ("TIKTOKEN", .external "tiktoken cl100k_base"),
   ("BPE", .external "tokenizers gpt2"),
   ("WP", .external "transformers bert-base-uncased"),
   ("SP", .external "sentencepiece spm.model"),
   ("ULM", .external "sentencepiece ulm.model"),
   ("BL-BPE", .external "tokenizers gpt2"),
   ("CHAR", .char_codes),
   ("T5", .external "transformers t5-small")]

/-- The strategy-resolution step of `encode_text` (lines 135-143):
`if tokenizer_type not in TOKENIZERS: raise ValueError(...)` else select
the entry's encode capability. -/
def resolveEncode (tokenizer_type : String) : Except String TokAdapter :=
  match dlookup TOKENIZERS tokenizer_type with
  | none => .error ("Unknown tokenizer type: " ++ tokenizer_type)
  | some a => .ok a

/-- The strategy-resolution step of `decode_text` (lines 145-153), with
the same recognized set. -/
def resolveDecode (tokenizer_type : String) : Except String TokAdapter :=
  match dlookup TOKENIZERS tokenizer_type with
  | none => .error ("Unknown tokenizer type: " ++ tokenizer_type)
  | some a => .ok a


/-! ## Specification-side definitions used by the theorems -/

/-- Pairs `(v[j], i + j)`: the canonical shape of `token_to_id` for a
duplicate-free vocabulary. -/
def zipIdx (i : Nat) : List String → List (String × Nat)
  | [] => []
  | t :: ts => (t, i) :: zipIdx (i + 1) ts

/-- Pairs `(i + j, v[j])`: the canonical shape of `id_to_token`. -/
def idxZip (i : Nat) : List String → List (Nat × String)
  | [] => []
  | t :: ts => (i, t) :: idxZip (i + 1) ts

/-- Index of the first occurrence of `t` in `v` (length of `v` when
absent). -/
def posOf (t : String) : List String → Nat
  | [] => 0
  | x :: xs => if x = t then 0 else posOf t xs + 1

/-- Well-formedness of a tokenizer state: the vocabulary has no
duplicates and both dicts are exactly the enumeration of the vocabulary.
Every state the program constructs (fresh init, init from a self-written
file, any number of encodes) satisfies this. -/
def WF (s : TokState) : Prop :=
  s.vocab.Nodup ∧ s.token_to_id = zipIdx 0 s.vocab ∧ s.id_to_token = idxZip 0 s.vocab

instance : DecidablePred WF := fun s => by unfold WF; infer_instance

/-- The vocabulary invariant exactly as the spec states it:
`token_to_id[entries[i]] == i` for every valid `i`; the ids assigned in
`id_to_token` are exactly `0 .. len(entries)-1`, each mapped to the entry
at that position (dense, starting at 0, in insertion order); and no token
occupies two ids (no duplicates). -/
def ClaimP (s : TokState) : Prop :=
  (∀ i (h : i < s.vocab.length), dlookup s.token_to_id (s.vocab.get ⟨i, h⟩) = some i) ∧
  (∀ i, dlookup s.id_to_token i = s.vocab[i]?) ∧
  s.vocab.Nodup

/-! ## Dictionary lemmas -/

theorem dlookup_dinsert_self {α β : Type} [DecidableEq α]
    (d : List (α × β)) (k : α) (v : β) : dlookup (dinsert d k v) k = some v := by
  induction d with
  | nil => simp [dinsert, dlookup]
  | cons p d ih =>
    obtain ⟨k', v'⟩ := p
    by_cases h : k' = k <;> simp [dinsert, dlookup, h, ih]

theorem dlookup_dinsert_ne {α β : Type} [DecidableEq α]
    (d : List (α × β)) {k k' : α} (v : β) (hne : k' ≠ k) :
    dlookup (dinsert d k v) k' = dlookup d k' := by
  have hne' : ∀ a : α, a = k → ¬ a = k' := fun a ha h' => hne (h' ▸ ha ▸ rfl)
  induction d with
  | nil =>
    have h1 : ¬ k = k' := hne' k rfl
    simp [dinsert, dlookup, h1]
  | cons p d ih =>
    obtain ⟨k0, v0⟩ := p
    by_cases h : k0 = k
    · subst h
      have h1 : ¬ k0 = k' := hne' k0 rfl
      simp [dinsert, dlookup, h1]
    · simp only [dinsert, if_neg h, dlookup]
      by_cases h' : k0 = k' <;> simp [h', ih]

theorem dinsert_of_lookup_none {α β : Type} [DecidableEq α]
    {d : List (α × β)} {k : α} (v : β) (h : dlookup d k = none) :
    dinsert d k v = d ++ [(k, v)] := by
  induction d with
  | nil => simp [dinsert]
  | cons p d ih =>
    obtain ⟨k0, v0⟩ := p
    simp only [dlookup] at h
    by_cases h0 : k0 = k
    · simp [h0] at h
    · simp only [if_neg h0] at h
      simp [dinsert, h0, ih h]

theorem dlookup_eq_none_of_forall {α β : Type} [DecidableEq α]
    {d : List (α × β)} {k : α} (h : ∀ p ∈ d, p.1 ≠ k) : dlookup d k = none := by
  induction d with
  | nil => rfl
  | cons p d ih =>
    obtain ⟨k0, v0⟩ := p
    have := h (k0, v0) (by simp)
    simp only [dlookup, if_neg this]
    exact ih fun p hp => h p (by simp [hp])

theorem dlookup_append_right {α β : Type} [DecidableEq α]
    {d : List (α × β)} (e : List (α × β)) {k : α} (h : dlookup d k = none) :
    dlookup (d ++ e) k = dlookup e k := by
  induction d with
  | nil => rfl
  | cons p d ih =>
    obtain ⟨k0, v0⟩ := p
    simp only [dlookup] at h
    by_cases h0 : k0 = k
    · simp [h0] at h
    · simp only [if_neg h0] at h
      simp [dlookup, if_neg h0, ih h]

/-! ## Lemmas on the canonical dict shapes -/

theorem zipIdx_append (i : Nat) (v w : List String) :
    zipIdx i (v ++ w) = zipIdx i v ++ zipIdx (i + v.length) w := by
  induction v generalizing i with
  | nil => simp [zipIdx]
  | cons t ts ih =>
    have h1 : i + 1 + ts.length = i + (ts.length + 1) := by omega
    simp only [List.cons_append, zipIdx, List.append_eq, ih (i + 1),
      List.length_cons, h1]

theorem idxZip_append (i : Nat) (v w : List String) :
    idxZip i (v ++ w) = idxZip i v ++ idxZip (i + v.length) w := by
  induction v generalizing i with
  | nil => simp [idxZip]
  | cons t ts ih =>
    have h1 : i + 1 + ts.length = i + (ts.length + 1) := by omega
    simp only [List.cons_append, idxZip, List.append_eq, ih (i + 1),
      List.length_cons, h1]

theorem dlookup_zipIdx_of_not_mem {t : String} {v : List String}
    (h : t ∉ v) (i : Nat) : dlookup (zipIdx i v) t = none := by
  induction v generalizing i with
  | nil => rfl
  | cons x xs ih =>
    simp only [List.mem_cons, not_or] at h
    have hxt : ¬ x = t := fun e => h.1 e.symm
    simp [zipIdx, dlookup, hxt, ih h.2]

theorem dlookup_zipIdx_of_mem {t : String} {v : List String}
    (h : t ∈ v) (i : Nat) : dlookup (zipIdx i v) t = some (i + posOf t v) := by
  induction v generalizing i with
  | nil => cases h
  | cons x xs ih =>
    by_cases hx : x = t
    · simp [zipIdx, dlookup, hx, posOf]
    · rcases List.mem_cons.mp h with h' | h'
      · exact absurd h'.symm hx
      · simp only [zipIdx, dlookup, if_neg hx, posOf, if_neg hx, ih h']
        rw [show i + 1 + posOf t xs = i + (posOf t xs + 1) by omega]

theorem dlookup_zipIdx_some {t : String} {v : List String} {i j : Nat}
    (h : dlookup (zipIdx i v) t = some j) : t ∈ v ∧ j = i + posOf t v := by
  by_cases hm : t ∈ v
  · rw [dlookup_zipIdx_of_mem hm] at h
    exact ⟨hm, (Option.some_inj.mp h).symm⟩
  · rw [dlookup_zipIdx_of_not_mem hm] at h
    cases h

theorem dlookup_idxZip (v : List String) (i k : Nat) :
    dlookup (idxZip i v) k =
      if i ≤ k ∧ k < i + v.length then v[k - i]? else none := by
  induction v generalizing i with
  | nil => simp [idxZip, dlookup]
  | cons x xs ih =>
    simp only [idxZip, dlookup, ih (i + 1), List.length_cons]
    by_cases hk : i = k
    · subst hk
      simp [Nat.sub_self]
    · rw [if_neg hk]
      by_cases h1 : i + 1 ≤ k ∧ k < i + 1 + xs.length
      · rw [if_pos h1, if_pos (by omega)]
        have : k - i = (k - (i + 1)) + 1 := by omega
        rw [this]
        simp
      · rw [if_neg h1, if_neg (by omega)]

/-! ## Lemmas on `posOf` -/

theorem posOf_append_left {t : String} {v : List String} (h : t ∈ v)
    (w : List String) : posOf t (v ++ w) = posOf t v := by
  induction v with
  | nil => cases h
  | cons x xs ih =>
    by_cases hx : x = t
    · simp [posOf, hx]
    · rcases List.mem_cons.mp h with h' | h'
      · exact absurd h'.symm hx
      · simp [posOf, hx, ih h']

theorem posOf_append_self {t : String} {v : List String} (h : t ∉ v)
    (w : List String) : posOf t (v ++ t :: w) = v.length := by
  induction v with
  | nil => simp [posOf]
  | cons x xs ih =>
    simp only [List.mem_cons, not_or] at h
    have hxt : ¬ x = t := fun e => h.1 e.symm
    simp [posOf, hxt, ih h.2]

theorem getElem?_posOf {t : String} {v : List String} (h : t ∈ v) :
    v[posOf t v]? = some t := by
  induction v with
  | nil => cases h
  | cons x xs ih =>
    by_cases hx : x = t
    · simp [posOf, hx]
    · rcases List.mem_cons.mp h with h' | h'
      · exact absurd h'.symm hx
      · simp [posOf, hx, ih h']

theorem posOf_lt_length {t : String} {v : List String} (h : t ∈ v) :
    posOf t v < v.length := by
  induction v with
  | nil => cases h
  | cons x xs ih =>
    by_cases hx : x = t
    · simp [posOf, hx]
    · rcases List.mem_cons.mp h with h' | h'
      · exact absurd h'.symm hx
      · simp only [posOf, if_neg hx, List.length_cons]
        exact Nat.succ_lt_succ (ih h')

theorem posOf_get {v : List String} (hn : v.Nodup) (i : Nat) (h : i < v.length) :
    posOf (v.get ⟨i, h⟩) v = i := by
  induction v generalizing i with
  | nil => cases h
  | cons x xs ih =>
    rcases List.nodup_cons.mp hn with ⟨hx, hxs⟩
    cases i with
    | zero => simp [posOf]
    | succ j =>
      have hj : j < xs.length := by simpa using h
      have hne : x ≠ xs.get ⟨j, hj⟩ := fun e => hx (by rw [e]; exact xs.get_mem _ hj)
      simp only [posOf, List.get]
      rw [if_neg hne, ih hxs j hj]

/-! ## Well-formedness: establishment and preservation -/

theorem buildT2Igo_fresh (v : List String) :
    ∀ (i : Nat) (d : List (String × Nat)),
      v.Nodup → (∀ t ∈ v, dlookup d t = none) →
      buildT2Igo v i d = d ++ zipIdx i v := by
  induction v with
  | nil => intro i d _ _; simp [buildT2Igo, zipIdx]
  | cons t ts ih =>
    intro i d hn hf
    rcases List.nodup_cons.mp hn with ⟨ht, hts⟩
    simp only [buildT2Igo, zipIdx]
    rw [dinsert_of_lookup_none i (hf t (by simp))]
    rw [ih (i + 1) (d ++ [(t, i)]) hts]
    · simp
    · intro u hu
      rw [dlookup_append_right [(t, i)] (hf u (by simp [hu]))]
      have : ¬ t = u := fun e => ht (e ▸ hu)
      simp [dlookup, this]

theorem buildT2I_eq {v : List String} (hn : v.Nodup) :
    buildT2I v = zipIdx 0 v := by
  have := buildT2Igo_fresh v 0 [] hn (fun t _ => rfl)
  simpa [buildT2I] using this

theorem buildI2Tgo_fresh (v : List String) :
    ∀ (i : Nat) (d : List (Nat × String)),
      (∀ p ∈ d, p.1 < i) →
      buildI2Tgo v i d = d ++ idxZip i v := by
  induction v with
  | nil => intro i d _; simp [buildI2Tgo, idxZip]
  | cons t ts ih =>
    intro i d hb
    simp only [buildI2Tgo, idxZip]
    rw [dinsert_of_lookup_none t
      (dlookup_eq_none_of_forall fun p hp => Nat.ne_of_lt (hb p hp))]
    rw [ih (i + 1) (d ++ [(i, t)])]
    · simp
    · intro p hp
      rcases List.mem_append.mp hp with h | h
      · exact Nat.lt_succ_of_lt (hb p h)
      · simp only [List.mem_singleton] at h
        simp [h]

theorem buildI2T_eq (v : List String) : buildI2T v = idxZip 0 v := by
  have := buildI2Tgo_fresh v 0 [] (by simp)
  simpa [buildI2T] using this

theorem stateOfVocab_WF {v : List String} (hn : v.Nodup) :
    WF (stateOfVocab v) := by
  exact ⟨hn, buildT2I_eq hn, buildI2T_eq v⟩

theorem freshState_WF : WF freshState := by decide

theorem WF_not_mem {s : TokState} (hs : WF s) {t : String}
    (h : dlookup s.token_to_id t = none) : t ∉ s.vocab := by
  intro hm
  rw [hs.2.1, dlookup_zipIdx_of_mem hm] at h
  cases h

theorem addToken_WF {s : TokState} (hs : WF s) {t : String}
    (h : t ∉ s.vocab) : WF (addToken s t) := by
  obtain ⟨hn, ht2i, hi2t⟩ := hs
  refine ⟨?_, ?_, ?_⟩
  · simp [addToken, List.nodup_append, hn, h]
  · show dinsert s.token_to_id t ((s.vocab ++ [t]).length - 1) =
      zipIdx 0 (s.vocab ++ [t])
    rw [ht2i, zipIdx_append]
    simp only [List.length_append, List.length_singleton, zipIdx,
      Nat.add_sub_cancel]
    rw [dinsert_of_lookup_none _ (dlookup_zipIdx_of_not_mem h 0)]
    simp [zipIdx]
  · show dinsert s.id_to_token ((s.vocab ++ [t]).length - 1) t =
      idxZip 0 (s.vocab ++ [t])
    rw [hi2t, idxZip_append]
    simp only [List.length_append, List.length_singleton, idxZip,
      Nat.add_sub_cancel]
    have hb : dlookup (idxZip 0 s.vocab) s.vocab.length = none := by
      rw [dlookup_idxZip]
      rw [if_neg (by omega)]
    rw [dinsert_of_lookup_none _ hb]
    simp [idxZip]

theorem addToken_vocab (s : TokState) (t : String) :
    (addToken s t).vocab = s.vocab ++ [t] := rfl

/-! ## The encode loop specification -/

theorem encodeLoop_spec :
    ∀ (ts : List String) (s : TokState), WF s →
      WF (encodeLoop s ts).2.2 ∧
      (encodeLoop s ts).2.2.vocab = s.vocab ++ (encodeLoop s ts).2.1 ∧
      (∀ t ∈ ts, t ∈ (encodeLoop s ts).2.2.vocab) ∧
      (encodeLoop s ts).1 = ts.map fun t => posOf t (encodeLoop s ts).2.2.vocab := by
  intro ts
  induction ts with
  | nil => intro s hs; simp [encodeLoop, hs]
  | cons t ts ih =>
    intro s hs
    match hl : dlookup s.token_to_id t with
    | some id =>
      have hmem : t ∈ s.vocab ∧ id = 0 + posOf t s.vocab := by
        rw [hs.2.1] at hl
        exact dlookup_zipIdx_some hl
      obtain ⟨hwf', hvoc', hmem', hids'⟩ := ih s hs
      simp only [encodeLoop, hl]
      refine ⟨hwf', hvoc', ?_, ?_⟩
      · intro u hu
        rcases List.mem_cons.mp hu with h | h
        · subst h
          rw [hvoc']
          exact List.mem_append_left _ hmem.1
        · exact hmem' u h
      · simp only [List.map_cons, hids']
        congr 1
        rw [hvoc', posOf_append_left hmem.1]
        omega
    | none =>
      have hnm : t ∉ s.vocab := WF_not_mem hs hl
      have hwf1 : WF (addToken s t) := addToken_WF hs hnm
      obtain ⟨hwf', hvoc', hmem', hids'⟩ := ih (addToken s t) hwf1
      have hid : (dlookup (addToken s t).token_to_id t).getD 0 = s.vocab.length := by
        show (dlookup (dinsert s.token_to_id t ((s.vocab ++ [t]).length - 1)) t).getD 0 = _
        rw [dlookup_dinsert_self]
        simp
      simp only [encodeLoop, hl]
      refine ⟨hwf', ?_, ?_, ?_⟩
      · rw [hvoc', addToken_vocab]
        simp
      · intro u hu
        rcases List.mem_cons.mp hu with h | h
        · subst h
          rw [hvoc', addToken_vocab]
          exact List.mem_append_left _ (List.mem_append_right _ (by simp))
        · exact hmem' u h
      · simp only [List.map_cons, hids', hid]
        congr 1
        rw [hvoc', addToken_vocab, List.append_assoc, List.singleton_append]
        rw [posOf_append_self hnm]

/-- A well-formed state satisfies the spec's vocabulary invariant. -/
theorem WF_ClaimP {s : TokState} (hs : WF s) : ClaimP s := by
  obtain ⟨hn, ht2i, hi2t⟩ := hs
  refine ⟨?_, ?_, hn⟩
  · intro i h
    rw [ht2i, dlookup_zipIdx_of_mem (List.get_mem s.vocab i h)]
    rw [posOf_get hn i h]
    simp
  · intro i
    rw [hi2t, dlookup_idxZip]
    by_cases h : i < s.vocab.length
    · rw [if_pos (by omega)]
      simp
    · rw [if_neg (by omega)]
      exact (List.getElem?_eq_none (by omega)).symm

/-! ## JSON round trip -/

theorem mkChar?_toNat (c : Char) : mkChar? c.toNat = some c := by
  unfold mkChar?
  rw [dif_pos (show Nat.isValidChar c.toNat from c.valid)]
  congr 1

theorem char_eq_of_toNat {c d : Char} (h : c.toNat = d.toNat) : c = d := by
  have h1 := mkChar?_toNat c
  rw [h, mkChar?_toNat d] at h1
  exact (Option.some_inj.mp h1).symm

theorem hexVal_hexDigitL {n : Nat} (h : n < 16) : hexVal (hexDigitL n) = some n := by
  interval_cases n <;> decide

theorem parseHex4_toHex4 {n : Nat} (h : n < 65536) :
    parseHex4 (hexDigitL (n / 4096 % 16)) (hexDigitL (n / 256 % 16))
      (hexDigitL (n / 16 % 16)) (hexDigitL (n % 16)) = some n := by
  unfold parseHex4
  rw [hexVal_hexDigitL (by omega), hexVal_hexDigitL (by omega),
    hexVal_hexDigitL (by omega), hexVal_hexDigitL (by omega)]
  simp only [Option.some_bind, Option.map_some', Option.some.injEq]
  omega

theorem decodeOne_quote (xs : List Char) : decodeOne ('"' :: xs) = none := rfl

theorem decodeOne_u (a b d e : Char) (tl : List Char) :
    decodeOne ('\\' :: 'u' :: a :: b :: d :: e :: tl) =
      ((parseHex4 a b d e).bind fun m =>
        if m < 55296 ∨ 57344 ≤ m then
          (mkChar? m).map fun ch => (ch, tl)
        else if m < 56320 then decodeLow m tl
        else none) := rfl

theorem decodeLow_cons (m : Nat) (g1 g2 g3 g4 : Char) (tl : List Char) :
    decodeLow m ('\\' :: 'u' :: g1 :: g2 :: g3 :: g4 :: tl) =
      ((parseHex4 g1 g2 g3 g4).bind fun lo =>
        if 56320 ≤ lo ∧ lo < 57344 then
          (mkChar? (65536 + (m - 55296) * 1024 + (lo - 56320))).map
            fun ch => (ch, tl)
        else none) := by
  simp only [decodeLow]
  rw [if_pos ⟨trivial, trivial⟩]

/-- Decoding inverts the escape of a single character. -/
theorem decodeOne_escChar (c : Char) (tl : List Char) :
    decodeOne (escChar c ++ tl) = some (c, tl) := by
  have hv : Nat.isValidChar c.toNat := c.valid
  by_cases hq : c = '"'
  · subst hq; rfl
  by_cases hbs : c = '\\'
  · subst hbs; rfl
  by_cases h10 : c.toNat = 10
  · have hc : c = Char.ofNat 10 := char_eq_of_toNat (by rw [h10]; rfl)
    subst hc; rfl
  by_cases h13 : c.toNat = 13
  · have hc : c = Char.ofNat 13 := char_eq_of_toNat (by rw [h13]; rfl)
    subst hc; rfl
  by_cases h9 : c.toNat = 9
  · have hc : c = Char.ofNat 9 := char_eq_of_toNat (by rw [h9]; rfl)
    subst hc; rfl
  by_cases h8 : c.toNat = 8
  · have hc : c = Char.ofNat 8 := char_eq_of_toNat (by rw [h8]; rfl)
    subst hc; rfl
  by_cases h12 : c.toNat = 12
  · have hc : c = Char.ofNat 12 := char_eq_of_toNat (by rw [h12]; rfl)
    subst hc; rfl
  by_cases hmid : 32 ≤ c.toNat ∧ c.toNat ≤ 126
  · have hesc : escChar c = [c] := by
      unfold escChar
      rw [if_neg hq, if_neg hbs, if_neg h10, if_neg h13, if_neg h9, if_neg h8,
        if_neg h12, if_pos hmid]
    rw [hesc]
    show decodeOne (c :: tl) = some (c, tl)
    simp only [decodeOne]
    rw [if_neg hbs, if_neg hq, if_pos hmid.1]
  by_cases hbmp : c.toNat < 65536
  · have hesc : escChar c = '\\' :: 'u' :: toHex4 c.toNat := by
      unfold escChar
      rw [if_neg hq, if_neg hbs, if_neg h10, if_neg h13, if_neg h9, if_neg h8,
        if_neg h12, if_neg hmid, if_pos hbmp]
    rw [hesc]
    simp only [toHex4, List.cons_append, List.nil_append]
    rw [decodeOne_u, parseHex4_toHex4 hbmp]
    have hval : c.toNat < 55296 ∨ 57344 ≤ c.toNat := by
      rcases hv with h | h
      · exact Or.inl h
      · exact Or.inr (by omega)
    simp only [Option.some_bind, if_pos hval, mkChar?_toNat, Option.map_some']
  · have hesc : escChar c =
        ('\\' :: 'u' :: toHex4 (55296 + (c.toNat - 65536) / 1024)) ++
        ('\\' :: 'u' :: toHex4 (56320 + (c.toNat - 65536) % 1024)) := by
      unfold escChar
      rw [if_neg hq, if_neg hbs, if_neg h10, if_neg h13, if_neg h9, if_neg h8,
        if_neg h12, if_neg hmid, if_neg hbmp]
    have hub : c.toNat < 1114112 := by
      rcases hv with h | h
      · omega
      · omega
    have hhi : 55296 + (c.toNat - 65536) / 1024 < 65536 := by omega
    have hlo : 56320 + (c.toNat - 65536) % 1024 < 65536 := by omega
    have harith : 65536 + (55296 + (c.toNat - 65536) / 1024 - 55296) * 1024 +
        (56320 + (c.toNat - 65536) % 1024 - 56320) = c.toNat := by omega
    rw [hesc]
    simp only [toHex4, List.cons_append, List.nil_append, List.append_assoc]
    rw [decodeOne_u, parseHex4_toHex4 hhi, Option.some_bind]
    rw [if_neg (by omega), if_pos (by omega : 55296 + (c.toNat - 65536) / 1024 < 56320)]
    rw [decodeLow_cons, parseHex4_toHex4 hlo, Option.some_bind]
    rw [if_pos (by constructor <;> omega), harith, mkChar?_toNat, Option.map_some']

theorem escChar_ne_nil (c : Char) : escChar c ≠ [] := by
  intro h
  have hd := decodeOne_escChar c []
  rw [h] at hd
  cases hd

theorem parseSB_escChar (f : Nat) (c : Char) (tl : List Char) :
    parseSB (f + 1) (escChar c ++ tl) = consChar c (parseSB f tl) := by
  cases hsh : escChar c ++ tl with
  | nil =>
    exact absurd (List.append_eq_nil.mp hsh).1 (escChar_ne_nil c)
  | cons c0 rest0 =>
    have hdec := decodeOne_escChar c tl
    rw [hsh] at hdec
    have hq : ¬ c0 = '"' := by
      intro h
      subst h
      rw [decodeOne_quote] at hdec
      cases hdec
    show parseSB (f + 1) (c0 :: rest0) = consChar c (parseSB f tl)
    simp only [parseSB]
    rw [if_neg hq, hdec, Option.some_bind]

theorem parseSB_flatMap :
    ∀ (data : List Char) (tl : List Char) (f : Nat), data.length < f →
      parseSB f (data.flatMap escChar ++ '"' :: tl) = some (data, tl) := by
  intro data
  induction data with
  | nil =>
    intro tl f hf
    match f, hf with
    | f' + 1, _ =>
      simp [parseSB]
  | cons c data ih =>
    intro tl f hf
    match f, hf with
    | f' + 1, hf =>
      have h1 : (c :: data).flatMap escChar ++ '"' :: tl =
          escChar c ++ (data.flatMap escChar ++ '"' :: tl) := by
        simp [List.flatMap_cons]
      rw [h1, parseSB_escChar, ih tl f' (by simpa using hf)]
      rfl

theorem length_le_flatMap (data : List Char) :
    data.length ≤ (data.flatMap escChar).length := by
  induction data with
  | nil => simp
  | cons c data ih =>
    simp only [List.flatMap_cons, List.length_cons, List.length_append]
    have : 1 ≤ (escChar c).length := by
      cases h : escChar c with
      | nil => exact absurd h (escChar_ne_nil c)
      | cons d ds => simp
    omega

theorem parseJStr_dumpString (s : String) (rest : List Char) :
    parseJStr (dumpStringL s ++ rest) = some (s, rest) := by
  obtain ⟨sd⟩ := s
  show parseJStr ('"' :: (sd.flatMap escChar ++ ['"']) ++ rest) = _
  have h1 : ('"' :: (sd.flatMap escChar ++ ['"'])) ++ rest =
      '"' :: (sd.flatMap escChar ++ '"' :: rest) := by
    simp
  rw [h1]
  simp only [parseJStr, if_pos rfl]
  have hlen : sd.length < (sd.flatMap escChar ++ '"' :: rest).length := by
    have := length_le_flatMap sd
    simp only [List.length_append, List.length_cons]
    omega
  rw [parseSB_flatMap sd rest _ hlen]
  rfl

theorem dumpStringL_shape (s : String) :
    ∃ r, dumpStringL s = '"' :: r := ⟨_, rfl⟩

theorem elemsL_shape (s : String) (vs : List String) :
    ∃ r, elemsL (s :: vs) = '"' :: r := by
  cases vs with
  | nil => exact ⟨_, rfl⟩
  | cons v vs' => exact ⟨_, rfl⟩

theorem parseElems_elemsL :
    ∀ (vs : List String) (s : String) (f : Nat), vs.length < f →
      parseElems f (elemsL (s :: vs) ++ [']']) = some (s :: vs, [']']) := by
  intro vs
  induction vs with
  | nil =>
    intro s f hf
    match f, hf with
    | f' + 1, _ =>
      show parseElems (f' + 1) (dumpStringL s ++ [']']) = some ([s], [']'])
      simp only [parseElems]
      rw [parseJStr_dumpString s [']'], Option.some_bind]
  | cons v vs ih =>
    intro s f hf
    match f, hf with
    | f' + 1, hf =>
      have h1 : elemsL (s :: v :: vs) ++ [']'] =
          dumpStringL s ++ (',' :: ' ' :: (elemsL (v :: vs) ++ [']'])) := by
      
        simp [elemsL]
      rw [h1]
      simp only [parseElems]
      rw [parseJStr_dumpString s (',' :: ' ' :: (elemsL (v :: vs) ++ [']'])),
        Option.some_bind]
      have h2 := ih v f' (by simpa using hf)
      simp only [h2]
      rw [if_pos ⟨trivial, trivial⟩]
      rfl

theorem two_le_dumpStringL (s : String) : 2 ≤ (dumpStringL s).length := by
  simp [dumpStringL]

theorem length_le_elemsL (s : String) (vs : List String) :
    (s :: vs).length ≤ (elemsL (s :: vs)).length := by
  induction vs generalizing s with
  | nil =>
    have := two_le_dumpStringL s
    simp only [elemsL, List.length_cons, List.length_nil]
    omega
  | cons v vs ih =>
    have h1 := two_le_dumpStringL s
    have h2 := ih v
    simp only [elemsL, List.length_append, List.length_cons] at h2 ⊢
    omega

/-- Round trip of the vocabulary file format: parsing the serialized
vocabulary recovers it exactly. -/
theorem loadsL_dumpsL (v : List String) : loadsL (dumpsL v) = some v := by
  cases v with
  | nil => rfl
  | cons s vs =>
    show loadsL ('[' :: elemsL (s :: vs) ++ [']']) = some (s :: vs)
    have hlen := length_le_elemsL s vs
    have hfuel : vs.length < (elemsL (s :: vs) ++ [']']).length + 1 := by
      simp only [List.length_cons, List.length_append] at hlen ⊢
      omega
    have hne : ¬ (elemsL (s :: vs) ++ [']'] = [']']) := by
      intro h
      have := congrArg List.length h
      simp only [List.length_cons, List.length_append, List.length_nil] at this hlen
      omega
    show (if ('[' : Char) = '[' then
        if elemsL (s :: vs) ++ [']'] = [']'] then some []
        else
          (parseElems ((elemsL (s :: vs) ++ [']']).length + 1)
            (elemsL (s :: vs) ++ [']'])).bind
            fun p => if p.2 = [']'] then some p.1 else none
      else none) = some (s :: vs)
    rw [if_pos rfl, if_neg hne]
    rw [parseElems_elemsL vs s _ hfuel, Option.some_bind]
    rw [if_pos rfl]

theorem loads_dumps (v : List String) : loads (dumps v) = some v :=
  loadsL_dumpsL v

theorem pyinit_parse {content : String} {v : List String}
    (hl : loads content = some v) :
    pyinit (some content) = .ok (stateOfVocab v, some content) := by
  simp [pyinit, hl]

/-- Specification of one registry-style encode call (fresh instance,
`vocab_update=True`) on a parseable, duplicate-free vocabulary file: it
succeeds, the resulting file again parses to a vocabulary that extends
the old one by the new tokens, and the returned ids are the positions of
the framed tokens in that final vocabulary. -/
theorem runEncodeB_spec {content : String} {v : List String}
    (hl : loads content = some v) (hn : v.Nodup) (text : String) :
    ∃ (v' : List String) (content' : String),
      runEncodeB (some content) text =
        .ok ((framedTokens text).map (fun t => posOf t v'), some content') ∧
      (∃ ext, v' = v ++ ext) ∧ v'.Nodup ∧ loads content' = some v' ∧
      (∀ t ∈ framedTokens text, t ∈ v') := by
  have hwf : WF (stateOfVocab v) := stateOfVocab_WF hn
  obtain ⟨hwf', hvoc', hmem', hids'⟩ := encodeLoop_spec (framedTokens text)
    (stateOfVocab v) hwf
  have hres : runEncodeB (some content) text =
      .ok ((encodeLoop (stateOfVocab v) (framedTokens text)).1,
        if true && !(encodeLoop (stateOfVocab v) (framedTokens text)).2.1.isEmpty
        then some (dumps (encodeLoop (stateOfVocab v) (framedTokens text)).2.2.vocab)
        else some content) := by
    unfold runEncodeB runEncodeBU
    rw [pyinit_parse hl]
    rfl
  refine ⟨(encodeLoop (stateOfVocab v) (framedTokens text)).2.2.vocab, ?_⟩
  cases hnew : (encodeLoop (stateOfVocab v) (framedTokens text)).2.1.isEmpty with
  | true =>
    refine ⟨content, ?_, ⟨_, hvoc'⟩, hwf'.1, ?_, hmem'⟩
    · rw [hres, hnew, hids']
      rfl
    · rw [hl, hvoc', List.isEmpty_iff.mp hnew]
      show some v = some ((stateOfVocab v).vocab ++ [])
      rw [List.append_nil]
      rfl
  | false =>
    refine ⟨dumps (encodeLoop (stateOfVocab v) (framedTokens text)).2.2.vocab,
      ?_, ⟨_, hvoc'⟩, hwf'.1, loads_dumps _, hmem'⟩
    rw [hres, hnew, hids']
    rfl

/-- Specification of a sequence of registry-style encode calls: the final
file still parses, to an extension of the starting vocabulary. -/
theorem runSeq_spec :
    ∀ (texts : List String) {content : String} {v : List String},
      loads content = some v → v.Nodup →
      ∃ (v' : List String) (content' : String),
        runSeq (some content) texts = .ok (some content') ∧
        (∃ ext, v' = v ++ ext) ∧ v'.Nodup ∧ loads content' = some v' := by
  intro texts
  induction texts with
  | nil =>
    intro content v hl hn
    exact ⟨v, content, rfl, ⟨[], by simp⟩, hn, hl⟩
  | cons t ts ih =>
    intro content v hl hn
    obtain ⟨v1, c1, hrun, ⟨ext1, hv1⟩, hn1, hl1, _⟩ := runEncodeB_spec hl hn t
    obtain ⟨v2, c2, hrun2, ⟨ext2, hv2⟩, hn2, hl2⟩ := ih hl1 hn1
    refine ⟨v2, c2, ?_, ⟨ext1 ++ ext2, by rw [hv2, hv1, List.append_assoc]⟩, hn2, hl2⟩
    show runSeq (some content) (t :: ts) = .ok (some c2)
    simp only [runSeq, hrun]
    exact hrun2

/-! ## Segmenter lemmas -/

theorem infix_trans {l m r : List Char} (h1 : l <:+: m) (h2 : m <:+: r) :
    l <:+: r := by
  obtain ⟨a, b, hab⟩ := h1
  obtain ⟨c, d, hcd⟩ := h2
  refine ⟨c ++ a, b ++ d, ?_⟩
  rw [← hcd, ← hab]
  simp [List.append_assoc]

theorem splitCore_parts (cs : List Char) :
    (splitCore cs).1 <+: cs ∧ ∀ t ∈ (splitCore cs).2, t <:+: cs := by
  induction cs using splitCore.induct with
  | case1 =>
    simp [splitCore]
  | case2 c h =>
    simp only [splitCore, if_pos h]
    refine ⟨List.nil_prefix, ?_⟩
    intro t ht
    rcases List.mem_cons.mp ht with h' | h'
    · subst h'
      exact ⟨[], [], by simp⟩
    · simp only [List.mem_singleton] at h'
      subst h'
      exact ⟨[c], [], by simp⟩
  | case3 c h =>
    simp only [splitCore, if_neg h]
    exact ⟨List.prefix_refl [c], by simp⟩
  | case4 c c2 cs hg ih =>
    simp only [splitCore, if_pos hg]
    obtain ⟨ihp, iht⟩ := ih
    refine ⟨List.nil_prefix, ?_⟩
    intro t ht
    rcases List.mem_cons.mp ht with h' | h'
    · subst h'
      exact ⟨[], c2 :: cs, by simp⟩
    rcases List.mem_cons.mp h' with h'' | h''
    · subst h''
      obtain ⟨w, hw⟩ := ihp
      exact ⟨[c], w, by rw [List.append_assoc, hw]; rfl⟩
    · exact infix_trans (iht t h'') ⟨[c], [], by simp⟩
  | case5 c c2 cs hg hd ih =>
    simp only [splitCore, if_neg hg, if_pos hd]
    obtain ⟨ihp, iht⟩ := ih
    rcases Bool.and_eq_true_iff.mp hd with ⟨hc1, hc2⟩
    have hc1' : c = '-' := by simpa using hc1
    have hc2' : c2 = '-' := by simpa using hc2
    refine ⟨List.nil_prefix, ?_⟩
    intro t ht
    rcases List.mem_cons.mp ht with h' | h'
    · subst h'
      exact ⟨[], cs, by rw [hc1', hc2']; rfl⟩
    rcases List.mem_cons.mp h' with h'' | h''
    · subst h''
      obtain ⟨w, hw⟩ := ihp
      exact ⟨[c, c2], w, by rw [List.append_assoc, hw]; rfl⟩
    · exact infix_trans (iht t h'') ⟨[c, c2], [], by simp⟩
  | case6 c c2 cs hg hd ih =>
    simp only [splitCore, if_neg hg, if_neg hd]
    obtain ⟨ihp, iht⟩ := ih
    constructor
    · obtain ⟨w, hw⟩ := ihp
      exact ⟨w, by rw [List.cons_append, hw]⟩
    · intro t ht
      exact infix_trans (iht t ht) ⟨[c], [], by simp⟩

theorem splitCore_nospace (cs : List Char) :
    (∀ c' ∈ (splitCore cs).1, isPySpace c' = false) ∧
    (∀ t ∈ (splitCore cs).2,
      (∀ c' ∈ t, isPySpace c' = false) ∨ ∃ c', t = [c'] ∧ isPySpace c' = true) := by
  induction cs using splitCore.induct with
  | case1 =>
    simp [splitCore]
  | case2 c h =>
    simp only [splitCore, if_pos h]
    refine ⟨by simp, ?_⟩
    intro t ht
    rcases List.mem_cons.mp ht with h' | h'
    · subst h'
      cases hsp : isPySpace c with
      | true => exact Or.inr ⟨c, rfl, hsp⟩
      | false =>
        refine Or.inl ?_
        intro c' hc'
        simp only [List.mem_singleton] at hc'
        subst hc'
        exact hsp
    · simp only [List.mem_singleton] at h'
      subst h'
      exact Or.inl (by simp)
  | case3 c h =>
    simp only [splitCore, if_neg h]
    simp only [Bool.or_eq_true, not_or, Bool.not_eq_true] at h
    refine ⟨?_, by simp⟩
    intro c' hc'
    simp only [List.mem_singleton] at hc'
    subst hc'
    exact h.2
  | case4 c c2 cs hg ih =>
    simp only [splitCore, if_pos hg]
    obtain ⟨ihp, iht⟩ := ih
    refine ⟨by simp, ?_⟩
    intro t ht
    rcases List.mem_cons.mp ht with h' | h'
    · subst h'
      cases hsp : isPySpace c with
      | true => exact Or.inr ⟨c, rfl, hsp⟩
      | false =>
        refine Or.inl ?_
        intro c' hc'
        simp only [List.mem_singleton] at hc'
        subst hc'
        exact hsp
    rcases List.mem_cons.mp h' with h'' | h''
    · subst h''
      exact Or.inl ihp
    · exact iht t h''
  | case5 c c2 cs hg hd ih =>
    simp only [splitCore, if_neg hg, if_pos hd]
    obtain ⟨ihp, iht⟩ := ih
    rcases Bool.and_eq_true_iff.mp hd with ⟨hc1, hc2⟩
    have hc1' : c = '-' := by simpa using hc1
    have hc2' : c2 = '-' := by simpa using hc2
    subst hc1'
    subst hc2'
    refine ⟨by simp, ?_⟩
    intro t ht
    rcases List.mem_cons.mp ht with h' | h'
    · subst h'
      refine Or.inl ?_
      intro c' hc'
      rcases List.mem_cons.mp hc' with h'' | h''
      · subst h''; rfl
      · simp only [List.mem_singleton] at h''
        subst h''; rfl
    rcases List.mem_cons.mp h' with h'' | h''
    · subst h''
      exact Or.inl ihp
    · exact iht t h''
  | case6 c c2 cs hg hd ih =>
    simp only [splitCore, if_neg hg, if_neg hd]
    obtain ⟨ihp, iht⟩ := ih
    simp only [Bool.or_eq_true, not_or, Bool.not_eq_true] at hg
    refine ⟨?_, iht⟩
    intro c' hc'
    rcases List.mem_cons.mp hc' with h'' | h''
    · subst h''
      exact hg.2
    · exact ihp c' h''

theorem dropWhile_of_head_false {cs : List Char}
    (h : ∀ c ∈ cs, isPySpace c = false) : cs.dropWhile isPySpace = cs := by
  cases cs with
  | nil => rfl
  | cons c cs =>
    rw [List.dropWhile_cons_of_neg]
    simp [h c (by simp)]

theorem stripL_of_nospace {cs : List Char}
    (h : ∀ c ∈ cs, isPySpace c = false) : stripL cs = cs := by
  unfold stripL
  rw [dropWhile_of_head_false h, dropWhile_of_head_false, List.reverse_reverse]
  intro c hc
  exact h c (by simpa using hc)

theorem stripL_within (cs : List Char) : stripL cs <:+: cs := by
  have h1 : cs.dropWhile isPySpace <:+ cs := List.dropWhile_suffix isPySpace
  have h2 : stripL cs <+: cs.dropWhile isPySpace := by
    have h3 := List.dropWhile_suffix (l := (cs.dropWhile isPySpace).reverse) isPySpace
    have h4 : (stripL cs).reverse <:+ (cs.dropWhile isPySpace).reverse := by
      unfold stripL
      rw [List.reverse_reverse]
      exact h3
    exact List.reverse_suffix.mp (by simpa using h4)
  obtain ⟨w, hw⟩ := h2
  obtain ⟨u, hu⟩ := h1
  exact ⟨u, w, by rw [List.append_assoc, hw, hu]⟩

theorem mem_of_infix {c : Char} {l m : List Char} (h : l <:+: m) (hc : c ∈ l) :
    c ∈ m := by
  obtain ⟨s, t, hst⟩ := h
  rw [← hst]
  simp [hc]

/-- Membership characterization for the Segmenter output. -/
theorem pysegment_mem {text : String} {p : String} (hp : p ∈ pysegment text) :
    ∃ item ∈ rsplit text.data, stripL item ≠ [] ∧ p.data = stripL item := by
  unfold pysegment at hp
  obtain ⟨item, hitem, hf⟩ := List.mem_filterMap.mp hp
  by_cases hnil : stripL item = []
  · simp [hnil] at hf
  · refine ⟨item, hitem, hnil, ?_⟩
    simp only [if_neg hnil] at hf
    cases hf
    rfl

/-- Every Segmenter piece is a contiguous substring of the input. -/
theorem pysegment_within {text : String} {p : String} (hp : p ∈ pysegment text) :
    p.data <:+: text.data := by
  obtain ⟨item, hitem, _, hdata⟩ := pysegment_mem hp
  have hinf : item <:+: text.data := by
    rcases List.mem_cons.mp hitem with h | h
    · subst h
      obtain ⟨w, hw⟩ := (splitCore_parts text.data).1
      exact ⟨[], w, by simpa using hw⟩
    · exact (splitCore_parts text.data).2 _ h
  rw [hdata]
  exact infix_trans (stripL_within item) hinf

/-- Every Segmenter piece is non-empty, contains no whitespace character,
and is fixed by stripping. -/
theorem pysegment_pieces {text : String} {p : String} (hp : p ∈ pysegment text) :
    p ≠ "" ∧ (∀ c ∈ p.data, isPySpace c = false) ∧ pystrip p = p := by
  obtain ⟨item, hitem, hnil, hdata⟩ := pysegment_mem hp
  have hsh : (∀ c' ∈ item, isPySpace c' = false) ∨
      ∃ c', item = [c'] ∧ isPySpace c' = true := by
    rcases List.mem_cons.mp hitem with h | h
    · subst h
      exact Or.inl (splitCore_nospace text.data).1
    · exact (splitCore_nospace text.data).2 _ h
  rcases hsh with hsh | ⟨c', hc', hsp⟩
  · have hstrip : stripL item = item := stripL_of_nospace hsh
    rw [hstrip] at hdata
    refine ⟨?_, ?_, ?_⟩
    · intro h
      rw [h] at hdata
      exact hnil (by rw [hstrip]; exact hdata.symm)
    · intro c hc
      exact hsh c (by rw [← hdata]; exact hc)
    · have h5 : stripL p.data = p.data := by
        rw [hdata, hstrip]
      show (⟨stripL p.data⟩ : String) = p
      rw [h5]
  · exfalso
    apply hnil
    rw [hc']
    unfold stripL
    simp [List.dropWhile, hsp]

theorem pyinit_malformed {content : String} (hl : loads content = none) :
    pyinit (some content) = .error "MalformedFile" := by
  simp [pyinit, hl]

/-! ## Claim theorems -/

/-- C1: after every encode operation of the local tokenizer on a
well-formed state (and trivially after decode, which takes no state to a
new state), `token_to_id[entries[i]] == i` for every valid index `i`, the
ids in `id_to_token` are exactly the positions `0 .. len(entries)-1` of
`entries` (dense, starting at 0, in insertion order), and no token string
occupies two distinct ids.  The second conjunct is the same property for
the unchanged state that `decode` reads. -/
theorem claim_C1_vocab_invariant (s : TokState) (fs : Option String)
    (text : String) (u : Bool) (hs : WF s) :
    ClaimP (pyencode s fs text u).2.1 ∧ ClaimP s := by
  constructor
  · exact WF_ClaimP (encodeLoop_spec (framedTokens text) s hs).1
  · exact WF_ClaimP hs

theorem claim_C1_witness :
    WF freshState ∧
      (ClaimP (pyencode freshState none "hi" true).2.1 ∧ ClaimP freshState) :=
  ⟨by decide, claim_C1_vocab_invariant freshState none "hi" true (by decide)⟩

/-- C2: saving any vocabulary (ordered sequence of token strings) to the
store and loading it back yields the same vocabulary; the serialized form
lists the tokens in id order. -/
theorem claim_C2_roundtrip (v : List String) : loads (dumps v) = some v :=
  loads_dumps v

/-- C3 counterexample: through the registry the local strategy constructs
a fresh `BasicTokenizer` from the vocabulary file on every call, so a
call with `vocab_update=False` loses its in-memory id assignments: on an
empty store, `encode("hi", vocab_update=False)` yields id 2 for `"hi"`,
but after one intervening `encode("bye")` (with update) a later
`encode("hi")` on the same path yields id 3 — the claim fails as stated
when some calls pass `grow=false`. -/
theorem claim_C3_counterexample :
    runEncodeBU none "hi" false =
      .ok ([0, 2, 1], some "[\"<|BOS|>\", \"<|EOS|>\"]") ∧
    runEncodeBU (some "[\"<|BOS|>\", \"<|EOS|>\"]") "bye" true =
      .ok ([0, 2, 1], some "[\"<|BOS|>\", \"<|EOS|>\", \"bye\"]") ∧
    runEncodeBU (some "[\"<|BOS|>\", \"<|EOS|>\", \"bye\"]") "hi" true =
      .ok ([0, 3, 1], some "[\"<|BOS|>\", \"<|EOS|>\", \"bye\", \"hi\"]") :=
  ⟨rfl, rfl, rfl⟩

/-- C3 amended: restricted to calls that all pass `vocab_update=True`
(the registry default), id assignment is stable: if the same token occurs
in the framed token sequences of two encode calls on the same vocabulary
file — with any number of update-true calls in between — both calls
return the same id for it, starting from any parseable duplicate-free
vocabulary file. -/
theorem claim_C3_amended {content content2 : String} {v : List String}
    (hl : loads content = some v) (hn : v.Nodup)
    {text1 text2 : String} {mid : List String}
    {ids1 ids2 : List Nat} {fs1 fs3 : Option String}
    (h1 : runEncodeB (some content) text1 = .ok (ids1, fs1))
    (h2 : runSeq fs1 mid = .ok (some content2))
    (h3 : runEncodeB (some content2) text2 = .ok (ids2, fs3))
    {t : String} {i j : Nat}
    (hi : (framedTokens text1)[i]? = some t)
    (hj : (framedTokens text2)[j]? = some t) :
    ids1[i]? = ids2[j]? ∧ ids1[i]? ≠ none := by
  obtain ⟨v1, c1, hrun1, ⟨ext1, hv1⟩, hn1, hl1, hmem1⟩ := runEncodeB_spec hl hn text1
  rw [hrun1] at h1
  have hids1 : ids1 = (framedTokens text1).map fun t => posOf t v1 := by
    cases h1; rfl
  have hfs1 : fs1 = some c1 := by
    cases h1; rfl
  subst hfs1
  obtain ⟨v2, c2, hrun2, ⟨ext2, hv2⟩, hn2, hl2⟩ := runSeq_spec mid hl1 hn1
  rw [hrun2] at h2
  have hc2 : content2 = c2 := by
    cases h2; rfl
  subst hc2
  obtain ⟨v3, c3, hrun3, ⟨ext3, hv3⟩, hn3, hl3, hmem3⟩ := runEncodeB_spec hl2 hn2 text2
  rw [hrun3] at h3
  have hids2 : ids2 = (framedTokens text2).map fun t => posOf t v3 := by
    cases h3; rfl
  have htm1 : t ∈ framedTokens text1 := by
    obtain ⟨hlt, hget⟩ := List.getElem?_eq_some.mp hi
    exact hget ▸ List.getElem_mem hlt
  have htm2 : t ∈ framedTokens text2 := by
    obtain ⟨hlt, hget⟩ := List.getElem?_eq_some.mp hj
    exact hget ▸ List.getElem_mem hlt
  have htv1 : t ∈ v1 := hmem1 t htm1
  have hpos3 : posOf t v3 = posOf t v1 := by
    rw [hv3, hv2, List.append_assoc]
    exact posOf_append_left htv1 _
  have e1 : ids1[i]? = some (posOf t v1) := by
    rw [hids1, List.getElem?_map, hi]
    rfl
  have e2 : ids2[j]? = some (posOf t v3) := by
    rw [hids2, List.getElem?_map, hj]
    rfl
  refine ⟨?_, ?_⟩
  · rw [e1, e2, hpos3]
  · rw [e1]
    exact Option.some_ne_none _

theorem claim_C3_amended_witness :
    ([0, 2, 1] : List Nat)[1]? = ([0, 2, 1] : List Nat)[1]? ∧
      ([0, 2, 1] : List Nat)[1]? ≠ none :=
  @claim_C3_amended "[\"<|BOS|>\", \"<|EOS|>\"]"
    "[\"<|BOS|>\", \"<|EOS|>\", \"hi\", \"bye\"]"
    ["<|BOS|>", "<|EOS|>"] rfl (by decide) "hi" "hi" ["bye"]
    [0, 2, 1] [0, 2, 1]
    (some "[\"<|BOS|>\", \"<|EOS|>\", \"hi\"]")
    (some "[\"<|BOS|>\", \"<|EOS|>\", \"hi\", \"bye\"]")
    rfl rfl rfl "hi" 1 1 rfl rfl

/-- C4: on a store with no vocabulary file, the first-ever
`encode("hi")` returns exactly `[0, 2, 1]`: the begin marker has id 0 and
the end marker id 1 from initialization, and `"hi"` (a single segment
with no internal delimiter) is assigned id 2.  The saved file lists the
three tokens in id order. -/
theorem claim_C4_fresh_encode :
    runEncodeB none "hi" =
      .ok ([0, 2, 1], some "[\"<|BOS|>\", \"<|EOS|>\", \"hi\"]") ∧
    dlookup freshState.token_to_id "<|BOS|>" = some 0 ∧
    dlookup freshState.token_to_id "<|EOS|>" = some 1 ∧
    pysegment "hi" = ["hi"] :=
  ⟨rfl, rfl, rfl, rfl⟩

/-- C5 counterexample: the reserved surface forms are not guaranteed
distinct from naturally occurring segments — the Segmenter never splits
the sentinel text (none of `<`, `|`, letters is a delimiter), so
segmenting the literal input `"<|BOS|>"` produces a segment equal to the
begin marker. -/
theorem claim_C5_counterexample :
    pysegment "<|BOS|>" = ["<|BOS|>"] ∧ "<|BOS|>" ∈ pysegment "<|BOS|>" :=
  ⟨rfl, by decide⟩

/-- C5 amended: every segment is a contiguous substring of the input, so
for any input text that does not contain the literal marker strings
`<|BOS|>` / `<|EOS|>` as substrings, no segment equals either marker. -/
theorem claim_C5_amended (text : String)
    (hb : ¬ ("<|BOS|>".data <:+: text.data))
    (he : ¬ ("<|EOS|>".data <:+: text.data)) :
    ∀ p ∈ pysegment text, p ≠ "<|BOS|>" ∧ p ≠ "<|EOS|>" := by
  intro p hp
  constructor
  · intro h
    subst h
    exact hb (pysegment_within hp)
  · intro h
    subst h
    exact he (pysegment_within hp)

theorem claim_C5_amended_witness :
    ¬ ("<|BOS|>".data <:+: "hello world".data) ∧
    ¬ ("<|EOS|>".data <:+: "hello world".data) ∧
    ∀ p ∈ pysegment "hello world", p ≠ "<|BOS|>" ∧ p ≠ "<|EOS|>" :=
  ⟨by decide, by decide, claim_C5_amended "hello world" (by decide) (by decide)⟩

/-- C6 counterexample: a decode-only use of the local strategy is not
write-free: through the registry, `BasicTokenizer()` is constructed
first, and on a store with no vocabulary file `__init__` writes the
initial special-token vocabulary (`save_vocab` on line 81) before
`decode` runs — the file goes from absent to present. -/
theorem claim_C6_counterexample :
    runDecodeB none [0] = .ok ("<|BOS|>", some "[\"<|BOS|>\", \"<|EOS|>\"]") ∧
    (some "[\"<|BOS|>\", \"<|EOS|>\"]" : Option String) ≠ none :=
  ⟨rfl, by decide⟩

/-- C6 amended: the `decode` method itself never mutates the vocabulary
(it only reads `id_to_token`), and a decode-only use of the strategy
performs no write whenever the vocabulary file already exists: the file
content after `decode` is exactly the content before. -/
theorem claim_C6_amended (content : String) (ids : List Nat)
    {out : String × Option String}
    (h : runDecodeB (some content) ids = .ok out) : out.2 = some content := by
  cases hl : loads content with
  | none =>
    unfold runDecodeB at h
    rw [pyinit_malformed hl] at h
    cases h
  | some v =>
    unfold runDecodeB at h
    rw [pyinit_parse hl] at h
    cases h
    rfl

theorem claim_C6_amended_witness :
    (("<|BOS|>[UNK]", some "[\"<|BOS|>\", \"<|EOS|>\"]") :
      String × Option String).2 = some "[\"<|BOS|>\", \"<|EOS|>\"]" :=
  claim_C6_amended "[\"<|BOS|>\", \"<|EOS|>\"]" [0, 5] rfl

/-- C7: the Segmenter is deterministic on the concrete example —
`segment("Hello, world!") = ["Hello", ",", "world", "!"]` (delimiters
kept as atomic tokens, left-to-right order) — and in general every
produced piece is non-empty and whitespace-stripped. -/
theorem claim_C7_segmenter :
    pysegment "Hello, world!" = ["Hello", ",", "world", "!"] ∧
    ∀ (text : String), ∀ p ∈ pysegment text, p ≠ "" ∧ pystrip p = p := by
  refine ⟨rfl, ?_⟩
  intro text p hp
  obtain ⟨h1, _, h3⟩ := pysegment_pieces hp
  exact ⟨h1, h3⟩

theorem claim_C7_witness :
    "," ∈ pysegment "Hello, world!" ∧ ("," : String) ≠ "" ∧ pystrip "," = "," :=
  ⟨by decide,
    claim_C7_segmenter.2 "Hello, world!" "," (by decide)⟩

/-- C8: decode never fails on out-of-range ids — each id with no assigned
token contributes the literal marker `"[UNK]"`; in particular
`decode([999])` on any vocabulary of size below 1000 returns `"[UNK]"`,
and more generally a decode whose ids are all out of range returns one
`"[UNK]"` per id. -/
theorem claim_C8_unknown_id (v : List String) (h : v.length < 1000) :
    pydecode (stateOfVocab v) [999] = "[UNK]" ∧
    ∀ (ids : List Nat), (∀ id ∈ ids, v.length ≤ id) →
      pydecode (stateOfVocab v) ids = String.join (ids.map fun _ => "[UNK]") := by
  have hlk : ∀ id, v.length ≤ id →
      dlookup (stateOfVocab v).id_to_token id = none := by
    intro id hid
    show dlookup (buildI2T v) id = none
    rw [buildI2T_eq, dlookup_idxZip]
    rw [if_neg (by omega)]
  constructor
  · show String.join ([999].map fun i =>
      (dlookup (stateOfVocab v).id_to_token i).getD "[UNK]") = "[UNK]"
    rw [List.map_singleton, hlk 999 (by omega)]
    rfl
  · intro ids hids
    show String.join (ids.map fun i =>
      (dlookup (stateOfVocab v).id_to_token i).getD "[UNK]") = _
    congr 1
    apply List.map_congr_left
    intro id hid
    rw [hlk id (hids id hid)]
    rfl

theorem claim_C8_witness :
    (["a", "b"] : List String).length < 1000 ∧
      pydecode (stateOfVocab ["a", "b"]) [999] = "[UNK]" :=
  ⟨by decide, (claim_C8_unknown_id ["a", "b"] (by decide)).1⟩

/-- C9: resolving any strategy name outside the fixed recognized set
(for example `"NOPE"`) fails with the unknown-strategy error (a
`ValueError` surfaced to the caller, for both the encode and the decode
path), while every recognized name resolves successfully. -/
theorem claim_C9_registry (n : String) (h : n ∉ TOKENIZERS.map Prod.fst) :
    resolveEncode n = .error ("Unknown tokenizer type: " ++ n) ∧
    resolveDecode n = .error ("Unknown tokenizer type: " ++ n) ∧
    (TOKENIZERS.map Prod.fst).all
      (fun m => (resolveEncode m).toOption.isSome &&
        (resolveDecode m).toOption.isSome) = true := by
  have hl : dlookup TOKENIZERS n = none := by
    apply dlookup_eq_none_of_forall
    intro p hp hpn
    exact h (hpn ▸ List.mem_map_of_mem Prod.fst hp)
  refine ⟨?_, ?_, rfl⟩
  · unfold resolveEncode
    rw [hl]
  · unfold resolveDecode
    rw [hl]

theorem claim_C9_witness :
    "NOPE" ∉ TOKENIZERS.map Prod.fst ∧
    (resolveEncode "NOPE" = .error ("Unknown tokenizer type: " ++ "NOPE") ∧
     resolveDecode "NOPE" = .error ("Unknown tokenizer type: " ++ "NOPE") ∧
     (TOKENIZERS.map Prod.fst).all
       (fun m => (resolveEncode m).toOption.isSome &&
         (resolveDecode m).toOption.isSome) = true) :=
  ⟨by decide, claim_C9_registry "NOPE" (by decide)⟩

/-- C10: every id returned by encode is a valid index into the
vocabulary as it stands when encode returns, and looking each returned
id up in `id_to_token` succeeds — so decoding encode's output against
the post-call state never takes the `"[UNK]"` substitution branch. -/
theorem claim_C10_ids_valid (s : TokState) (fs : Option String)
    (text : String) (u : Bool) (hs : WF s) :
    ∀ id ∈ (pyencode s fs text u).1,
      id < (pyencode s fs text u).2.1.vocab.length ∧
      (dlookup (pyencode s fs text u).2.1.id_to_token id).isSome = true := by
  obtain ⟨hwf', hvoc', hmem', hids'⟩ := encodeLoop_spec (framedTokens text) s hs
  intro id hid
  have hid' : id ∈ (encodeLoop s (framedTokens text)).1 := hid
  rw [hids'] at hid'
  obtain ⟨t, ht, hpos⟩ := List.mem_map.mp hid'
  have htv : t ∈ (encodeLoop s (framedTokens text)).2.2.vocab := hmem' t ht
  have hlt : id < (encodeLoop s (framedTokens text)).2.2.vocab.length := by
    rw [← hpos]
    exact posOf_lt_length htv
  refine ⟨hlt, ?_⟩
  have hcp := WF_ClaimP hwf'
  have hi2t := hcp.2.1 id
  show (dlookup (encodeLoop s (framedTokens text)).2.2.id_to_token id).isSome = true
  rw [hi2t, List.getElem?_eq_getElem hlt]
  rfl

theorem claim_C10_witness :
    (2 ∈ (pyencode freshState none "hi" true).1) ∧
      (2 < (pyencode freshState none "hi" true).2.1.vocab.length ∧
        (dlookup (pyencode freshState none "hi" true).2.1.id_to_token 2).isSome
          = true) :=
  ⟨by decide, claim_C10_ids_valid freshState none "hi" true (by decide) 2 (by decide)⟩
